import Mathlib

/-!
Verification of the time-domain interval algebra and exposure-sampling pipeline
of `astroduet/lightcurve.py`.

Times and fluxes are modelled exactly as rational numbers; numpy arrays of
`[start, end]` rows become `List (ℚ × ℚ)`.  Every definition below is a direct
transcription of the corresponding Python function:

* `join_equal_gti_boundaries`  — boundary joining (lines 20–36);
* `cross_two_gtis`             — the Stingray end-event sweep (lines 39–138),
  with `np.argsort` over the end times rendered as a (stable) insertion sort
  and `np.argmax` as first-index-of-maximum;
* `get_visibility_windows`     — periodic orbital windows (lines 141–180),
  with `np.arange` rendered with its documented element count
  `⌈(stop-start)/step⌉`; note that the source line
  `obs_windows[end_times > observation_end] = observation_end`
  assigns the scalar to *both* columns of every selected row;
* `calculate_flux`             — the windowed average (lines 183–186);
* `calculate_lightcurve_from_model` — the exposure synthesizer (lines 189–241),
  with `scipy.interpolate.interp1d(..., fill_value=0, bounds_error=False)`
  rendered as exact piecewise-linear interpolation with zero fill.
-/

/-- `np.diff`: consecutive differences of a list. -/
def listDiff : List ℚ → List ℚ
  | x :: y :: rest => (y - x) :: listDiff (y :: rest)
  | _ => []

/-- `calculate_flux(time, flux)` (lightcurve.py lines 183–186):
`dt = np.mean(np.diff(time))`, then `np.sum(flux * dt) / (time[-1] - time[0])`
(`np.sum(flux * dt)` is the sum of `flux` scaled by the scalar `dt`). -/
def calculate_flux (time flux : List ℚ) : ℚ :=
  flux.sum * ((listDiff time).sum / ((listDiff time).length : ℚ)) /
    (time.getLastD 0 - time.headD 0)

/-- `gti[:-1, 1] == gti[1:, 0]` followed by `np.any`: does any interval end
exactly where the next one starts? -/
def touchingAny : List (ℚ × ℚ) → Bool
  | a :: b :: rest => (decide (a.2 = b.1)) || touchingAny (b :: rest)
  | _ => false

/-- The rebuilding loop of `join_equal_gti_boundaries`: for `count` from `0`
to `len(gti) - 2`, append the merged pair when `gti[count][1] == gti[count+1][0]`
and `gti[count]` otherwise.  The loop runs `len(gti) - 1` times, so the final
interval is never appended on its own. -/
def mergePass : List (ℚ × ℚ) → List (ℚ × ℚ)
  | a :: b :: rest => (if a.2 = b.1 then (a.1, b.2) else a) :: mergePass (b :: rest)
  | _ => []

/-- `join_equal_gti_boundaries(gti)` (lightcurve.py lines 20–36). -/
def join_equal_gti_boundaries (gti : List (ℚ × ℚ)) : List (ℚ × ℚ) :=
  if touchingAny gti then mergePass gti else gti

/-- `np.argmax`: index of the first occurrence of the maximum; `none` on an
empty array (where numpy raises, caught by the sweep's `except`). -/
def argmaxIdx : List ℚ → Option ℕ
  | [] => none
  | x :: xs =>
    match argmaxIdx xs with
    | none => some 0
    | some j => if x < xs.getD j 0 then some (j + 1) else some 0

/-- `np.argmax(starts[starts < e])`: the lookup performed (twice) inside the
sweep's `try` block. -/
def lookVal (S : List ℚ) (e : ℚ) : Option ℕ :=
  argmaxIdx (S.filter (fun x => decide (x < e)))

/-- The "point 2" test of the sweep, on the *other* series: with
`soPos = lookVal oS e`, `cond1 = np.any((oE > s) & (oE < e))` and
`cond2 = oE[soPos] < s`; `np.any(np.logical_or(cond1, cond2))` is false when
`oE` is empty (broadcasting with an empty array). -/
def condOther (oS oE : List ℚ) (e s : ℚ) : Bool :=
  match lookVal oS e with
  | none => false
  | some soPos =>
    (oE.any (fun x => decide (s < x) && decide (x < e))) ||
      (!oE.isEmpty && decide (oE.getD soPos 0 < s))

/-- State threaded through the sweep loop of `cross_two_gtis`:
`last` is `last_end`, `out` is `final_gti`. -/
structure SweepState where
  last : ℚ
  out : List (ℚ × ℚ)
  deriving DecidableEq, Repr

/-- One iteration of the `for ie, e in enumerate(conc_end)` loop of
`cross_two_gtis`.  An event is `(start, end, tag)` with `tag = true` for
series 1.  The event's start component is unused here (the source only reads
`conc_start[0]`, for the initial `last_end`). -/
def sweepStep (S0 E0 S1 E1 : List ℚ) (σ : SweepState) (ev : ℚ × ℚ × Bool) :
    SweepState :=
  let e := ev.2.1
  let tS := if ev.2.2 then S1 else S0
  let oS := if ev.2.2 then S0 else S1
  let oE := if ev.2.2 then E0 else E1
  match lookVal tS e, lookVal oS e with
  | some stPos, some soPos =>
    let st := tS.getD stPos 0
    let so := oS.getD soPos 0
    let s := max st so
    if s ≤ σ.last then σ
    else if (oE.any (fun x => decide (s < x) && decide (x < e))) ||
        (!oE.isEmpty && decide (oE.getD soPos 0 < s)) then σ
    else ⟨e, σ.out ++ [(s, e)]⟩
  | _, _ => σ

/-- The candidate start computed by one sweep iteration for an end event at
`e`, independent of the event's series: both series' lookups must succeed and
the candidate is the larger of the two located start values (`sweepStep`
computes `max st so`, which is this value whichever series is "this"). -/
def stepS (S0 S1 : List ℚ) (e : ℚ) : Option ℚ :=
  match lookVal S0 e, lookVal S1 e with
  | some i, some j => some (max (S0.getD i 0) (S1.getD j 0))
  | _, _ => none

/-- Normal form of one sweep iteration once the candidate start `s` is known:
skip when `s ≤ last_end`, skip when the other-series condition `c` holds,
otherwise emit `[s, e]` and advance `last_end`. -/
def stepNF (c : Bool) (e s : ℚ) (σ : SweepState) : SweepState :=
  if s ≤ σ.last then σ else if c then σ else ⟨e, σ.out ++ [(s, e)]⟩

/-- Exchange the series tag of an event (relates `cross(A,B)` to
`cross(B,A)`). -/
def evFlip (ev : ℚ × ℚ × Bool) : ℚ × ℚ × Bool := (ev.1, ev.2.1, !ev.2.2)

/-- The ordering used for `np.argsort(conc_end)`: events compare by end time. -/
def evLE (x y : ℚ × ℚ × Bool) : Prop := x.2.1 ≤ y.2.1

instance : DecidableRel evLE := fun x y => inferInstanceAs (Decidable (x.2.1 ≤ y.2.1))

instance : IsTotal (ℚ × ℚ × Bool) evLE := ⟨fun a b => le_total a.2.1 b.2.1⟩

instance : IsTrans (ℚ × ℚ × Bool) evLE := ⟨fun _ _ _ h1 h2 => le_trans h1 h2⟩

/-- The concatenated, end-sorted event sequence of `cross_two_gtis`
(`conc_start`, `conc_end`, `conc_tag` reordered by `np.argsort(conc_end)`). -/
def sweepEvents (A B : List (ℚ × ℚ)) : List (ℚ × ℚ × Bool) :=
  List.insertionSort evLE
    (A.map (fun r => (r.1, r.2, false)) ++ B.map (fun r => (r.1, r.2, true)))

/-- `cross_two_gtis(gti0, gti1)` (lightcurve.py lines 39–138). -/
def cross_two_gtis (gti0 gti1 : List (ℚ × ℚ)) : List (ℚ × ℚ) :=
  let A := join_equal_gti_boundaries gti0
  let B := join_equal_gti_boundaries gti1
  let S0 := A.map Prod.fst
  let E0 := A.map Prod.snd
  let S1 := B.map Prod.fst
  let E1 := B.map Prod.snd
  match sweepEvents A B with
  | [] => []
  | h :: t =>
    (List.foldl (sweepStep S0 E0 S1 E1) ⟨h.1 - 1, []⟩ (h :: t)).out

/-- `np.arange(a, stop, step)` for a positive step: the elements
`a + i * step` for `0 ≤ i < ⌈(stop - a) / step⌉`. -/
def arange (a stop step : ℚ) : List ℚ :=
  (List.range (if 0 < step then (⌈(stop - a) / step⌉).toNat else 0)).map
    (fun i : ℕ => a + (i : ℚ) * step)

/-- `get_visibility_windows(observation_start, observation_end, orbital_period,
exposure_per_orbit, phase_start)` (lightcurve.py lines 141–180).  The numpy
statement `obs_windows[end_times > observation_end] = observation_end`
overwrites *both* entries of every selected row, so such a window becomes the
degenerate pair `(observation_end, observation_end)`; the `good` mask keeps
rows whose original start time is `< observation_end`. -/
def get_visibility_windows (observation_start observation_end : ℚ)
    (orbital_period : ℚ := 96 * 60) (exposure_per_orbit : ℚ := 35 * 60)
    (phase_start : ℚ := 0) : List (ℚ × ℚ) :=
  let tstart := observation_start + orbital_period * phase_start
  let start_times := arange tstart (observation_end + orbital_period) orbital_period
  start_times.filterMap (fun s =>
    if s < observation_end then
      some (if observation_end < s + exposure_per_orbit
        then (observation_end, observation_end)
        else (s, s + exposure_per_orbit))
    else none)

/-- `np.linspace(a, b, n)`: `n` evenly spaced points from `a` to `b`
inclusive. -/
def linspace (a b : ℚ) (n : ℕ) : List ℚ :=
  (List.range n).map (fun i : ℕ => a + (i : ℚ) * ((b - a) / ((n : ℚ) - 1)))

/-- `scipy.interpolate.interp1d(xs, ys, fill_value=0, bounds_error=False)`
evaluated at `x`: exact piecewise-linear interpolation through the sample
points, `0` outside their span. -/
def interp : List (ℚ × ℚ) → ℚ → ℚ
  | [], _ => 0
  | [p], x => if x = p.1 then p.2 else 0
  | p :: q :: rest, x =>
    if x < p.1 then 0
    else if x ≤ q.1 then p.2 + (q.2 - p.2) * (x - p.1) / (q.1 - p.1)
    else interp (q :: rest) x

/-- `np.arange(ow[0], ow[1], exposure_length)`: the slice start times tiled
through one live window. -/
def exposure_starts (ow : ℚ × ℚ) (exposure_length : ℚ) : List ℚ :=
  arange ow.1 ow.2 exposure_length

/-- `np.linspace(t, t + exposure_length, 10)`: the 10 interpolant sample times
of one exposure. -/
def fine_times (t exposure_length : ℚ) : List ℚ :=
  linspace t (t + exposure_length) 10

/-- One output row of the synthesizer: recorded time `t + exposure_length/2`
and the flux obtained by averaging the interpolated model over
`fine_times t exposure_length`. -/
def exposureRow (model : List (ℚ × ℚ)) (t exposure_length : ℚ) : ℚ × ℚ :=
  (t + exposure_length / 2,
   calculate_flux (fine_times t exposure_length)
     ((fine_times t exposure_length).map (interp model)))

/-- `calculate_lightcurve_from_model(model_time, model_lc, observing_windows,
visibility_windows, exposure_length)` (lightcurve.py lines 189–241), returning
the output table as a list of `(time, flux)` rows. -/
def calculate_lightcurve_from_model (model_time model_lc : List ℚ)
    (observing_windows : Option (List (ℚ × ℚ)) := none)
    (visibility_windows : Option (List (ℚ × ℚ)) := none)
    (exposure_length : ℚ := 300) : List (ℚ × ℚ) :=
  let ow0 := observing_windows.getD [(model_time.headD 0, model_time.getLastD 0)]
  let flat := ow0.flatMap (fun r => [r.1, r.2])
  let vw := visibility_windows.getD
    (get_visibility_windows ((flat.min?).getD 0) ((flat.max?).getD 0))
  let live := cross_two_gtis ow0 vw
  live.flatMap (fun ow =>
    (exposure_starts ow exposure_length).map
      (fun t => exposureRow (model_time.zip model_lc) t exposure_length))

/-- A uniformly spaced time grid: `n` points starting at `a` with spacing `d`
(the shape of grid described by the spec for the flux integrator, and the shape
`np.linspace` produces). -/
def uniformGrid (a d : ℚ) : ℕ → List ℚ
  | 0 => []
  | n + 1 => a :: uniformGrid (a + d) d n

/-- A valid IntervalList in the sense of §3 of the spec: every interval has
`start < end`, and the list is sorted and mutually non-overlapping (touching,
`end = next start`, is legal). -/
def ValidGTI (l : List (ℚ × ℚ)) : Prop :=
  (∀ r ∈ l, r.1 < r.2) ∧ l.Chain' (fun r s => r.2 ≤ s.1)

instance (l : List (ℚ × ℚ)) : Decidable (ValidGTI l) := by
  unfold ValidGTI; infer_instance

-- ### General lemmas about the embedded primitives

/-- The consecutive differences of a time grid telescope to `last - first`. -/
theorem listDiff_sum : ∀ l : List ℚ, (listDiff l).sum = l.getLastD 0 - l.headD 0
  | [] => by simp [listDiff]
  | [x] => by simp [listDiff]
  | x :: y :: rest => by
    have ih := listDiff_sum (y :: rest)
    simp only [List.headD_cons, List.getLastD_cons] at ih ⊢
    simp only [listDiff, List.sum_cons, ih]
    ring

theorem listDiff_length : ∀ l : List ℚ, (listDiff l).length = l.length - 1
  | [] => rfl
  | [_] => rfl
  | _ :: y :: rest => by
    have ih := listDiff_length (y :: rest)
    simp only [listDiff, List.length_cons] at ih ⊢
    omega

/-- On any grid of `n ≥ 2` points with nonzero span, `calculate_flux` returns
`sum(flux) / (n - 1)`: the mean consecutive difference telescopes to
`span / (n - 1)`, so the spacing cancels against the divide-by-span. -/
theorem calculate_flux_eq (time flux : List ℚ) (h2 : 2 ≤ time.length)
    (hne : time.getLastD 0 - time.headD 0 ≠ 0) :
    calculate_flux time flux = flux.sum / ((time.length : ℚ) - 1) := by
  unfold calculate_flux
  rw [listDiff_sum, listDiff_length]
  have hone : (1 : ℕ) ≤ time.length := le_trans (by norm_num) h2
  have hcast : ((time.length - 1 : ℕ) : ℚ) = (time.length : ℚ) - 1 := by
    push_cast [Nat.cast_sub hone]
    ring
  rw [hcast]
  have hden : ((time.length : ℚ) - 1) ≠ 0 := by
    have h2' : (2 : ℚ) ≤ (time.length : ℚ) := by exact_mod_cast h2
    intro h
    rw [sub_eq_zero] at h
    rw [h] at h2'
    norm_num at h2'
  set S := time.getLastD 0 - time.headD 0 with hS
  field_simp
  ring

theorem map_range_getLastD (f : ℕ → ℚ) (n : ℕ) (d : ℚ) :
    ((List.range (n + 1)).map f).getLastD d = f n := by
  rw [List.range_succ, List.map_append]
  simp

theorem linspace_length (a b : ℚ) (n : ℕ) : (linspace a b n).length = n := by
  simp [linspace]

theorem linspace_headD (a b : ℚ) (n : ℕ) (hn : 1 ≤ n) :
    (linspace a b n).headD 0 = a := by
  match n, hn with
  | m + 1, _ =>
    rw [linspace, List.range_succ_eq_map]
    simp

theorem linspace_getLastD (a b : ℚ) (n : ℕ) (hn : 2 ≤ n) :
    (linspace a b n).getLastD 0 = b := by
  match n, hn with
  | m + 2, _ =>
    rw [linspace, show m + 2 = (m + 1) + 1 from rfl, map_range_getLastD]
    have hm : ((m : ℚ) + 1) ≠ 0 := by positivity
    push_cast
    field_simp

theorem fine_times_length (t L : ℚ) : (fine_times t L).length = 10 :=
  linspace_length t (t + L) 10

theorem fine_times_headD (t L : ℚ) : (fine_times t L).headD 0 = t :=
  linspace_headD t (t + L) 10 (by norm_num)

theorem fine_times_getLastD (t L : ℚ) : (fine_times t L).getLastD 0 = t + L :=
  linspace_getLastD t (t + L) 10 (by norm_num)

theorem map_const_sum (l : List ℚ) (f : ℚ → ℚ) (v : ℚ) (h : ∀ x ∈ l, f x = v) :
    (l.map f).sum = l.length * v := by
  induction l with
  | nil => simp
  | cons a t ih =>
    simp only [List.map_cons, List.sum_cons, List.length_cons]
    rw [h a (by simp), ih (fun x hx => h x (by simp [hx]))]
    push_cast
    ring

theorem uniformGrid_length (a d : ℚ) : ∀ n : ℕ, (uniformGrid a d n).length = n := by
  intro n
  induction n generalizing a with
  | zero => rfl
  | succ m ih => simp [uniformGrid, ih]

theorem uniformGrid_headD (a d : ℚ) (n : ℕ) (hn : 1 ≤ n) :
    (uniformGrid a d n).headD 0 = a := by
  match n, hn with
  | m + 1, _ => simp [uniformGrid]

theorem uniformGrid_getLastD : ∀ (n : ℕ) (a d : ℚ), 1 ≤ n → ∀ d0 : ℚ,
    (uniformGrid a d n).getLastD d0 = a + ((n : ℚ) - 1) * d
  | 0, _, _, hn, _ => by omega
  | 1, a, d, _, d0 => by simp [uniformGrid]
  | k + 2, a, d, _, d0 => by
    have ih := uniformGrid_getLastD (k + 1) (a + d) d (by omega) a
    simp only [uniformGrid, List.getLastD_cons] at ih ⊢
    rw [ih]
    push_cast
    ring

theorem exposure_starts_length (a b L : ℚ) (hL : 0 < L) :
    (exposure_starts (a, b) L).length = ⌈(b - a) / L⌉₊ := by
  simp [exposure_starts, arange, if_pos hL, Int.ceil_toNat]

theorem exposure_starts_mem (a b L : ℚ) (hL : 0 < L) (t : ℚ) :
    t ∈ exposure_starts (a, b) L ↔ ∃ i : ℕ, t = a + (i : ℚ) * L ∧ a + (i : ℚ) * L < b := by
  simp only [exposure_starts, arange, if_pos hL, List.mem_map, List.mem_range]
  constructor
  · rintro ⟨i, hi, rfl⟩
    refine ⟨i, rfl, ?_⟩
    have h1 : (i : ℤ) < ⌈(b - a) / L⌉ := Int.lt_toNat.mp hi
    have h2 : (i : ℚ) < (b - a) / L := by exact_mod_cast Int.lt_ceil.mp h1
    have := (lt_div_iff hL).mp h2
    linarith
  · rintro ⟨i, rfl, hlt⟩
    refine ⟨i, ?_, rfl⟩
    rw [Int.lt_toNat, Int.lt_ceil]
    push_cast
    rw [lt_div_iff hL]
    linarith

-- ### Lemmas about `join_equal_gti_boundaries`

theorem touchingAny_true_shape {g : List (ℚ × ℚ)} (h : touchingAny g = true) :
    ∃ a b rest, g = a :: b :: rest := by
  match g with
  | [] => simp [touchingAny] at h
  | [x] => simp [touchingAny] at h
  | a :: b :: rest => exact ⟨a, b, rest, rfl⟩

theorem mergePass_noTouch : ∀ (a b : ℚ × ℚ) (rest : List (ℚ × ℚ)),
    (∀ r ∈ a :: b :: rest, r.1 < r.2) →
    touchingAny (mergePass (a :: b :: rest)) = false
  | a, b, [] => by
    intro _
    simp [mergePass, touchingAny]
  | a, b, c :: rest => by
    intro hv
    have ih := mergePass_noTouch b c rest (fun r hr => hv r (by
      simp only [List.mem_cons] at hr ⊢
      tauto))
    have hb : b.1 < b.2 := hv b (by simp)
    have hexp : mergePass (a :: b :: c :: rest) =
        (if a.2 = b.1 then (a.1, b.2) else a) :: mergePass (b :: c :: rest) := rfl
    have hexp2 : mergePass (b :: c :: rest) =
        (if b.2 = c.1 then (b.1, c.2) else b) :: mergePass (c :: rest) := rfl
    rw [hexp, hexp2, touchingAny, ← hexp2, ih, Bool.or_false]
    have hfst : ((if b.2 = c.1 then (b.1, c.2) else b) : ℚ × ℚ).1 = b.1 := by
      split <;> rfl
    rw [hfst]
    by_cases hab : a.2 = b.1
    · rw [if_pos hab]
      have hne : ¬((b.2 : ℚ) = b.1) := fun h => absurd (h ▸ hb) (lt_irrefl b.1)
      simpa using hne
    · rw [if_neg hab]
      simpa using hab

/-- Claim C8: `join_equal_gti_boundaries` is idempotent on any list of genuine
intervals (`start < end`).  After one pass, no two consecutive output rows can
share a boundary, so the second pass is the identity. -/
theorem C8_join_idem (g : List (ℚ × ℚ)) (hv : ∀ r ∈ g, r.1 < r.2) :
    join_equal_gti_boundaries (join_equal_gti_boundaries g) =
      join_equal_gti_boundaries g := by
  by_cases ht : touchingAny g
  · obtain ⟨a, b, rest, rfl⟩ := touchingAny_true_shape ht
    have h1 : join_equal_gti_boundaries (a :: b :: rest) = mergePass (a :: b :: rest) := by
      simp [join_equal_gti_boundaries, ht]
    rw [h1, join_equal_gti_boundaries,
      if_neg (by rw [mergePass_noTouch a b rest hv]; simp)]
  · have h1 : join_equal_gti_boundaries g = g := by
      simp [join_equal_gti_boundaries, ht]
    rw [h1, h1]

/-- Witness for C8 at the concrete list `[(0,1), (1,2), (3,4)]` (whose single
pass produces `[(0,2), (1,2)]`). -/
theorem C8_join_idem_witness :
    (∀ r ∈ [((0 : ℚ), (1 : ℚ)), (1, 2), (3, 4)], r.1 < r.2) ∧
      join_equal_gti_boundaries
          (join_equal_gti_boundaries [((0 : ℚ), (1 : ℚ)), (1, 2), (3, 4)]) =
        join_equal_gti_boundaries [((0 : ℚ), (1 : ℚ)), (1, 2), (3, 4)] :=
  ⟨by decide, C8_join_idem _ (by decide)⟩

-- ### Claims settled by direct evaluation of the model

/-- Claim C5 (code bug): on the sorted, non-overlapping input
`[(0,1), (1,2), (3,4)]` the single rebuilding pass of
`join_equal_gti_boundaries` emits exactly `len - 1` rows and never appends the
final interval, returning `[(0,2), (1,2)]`: the non-touching interval `(3,4)`
is dropped (and `(1,2)` is re-emitted although it was already merged). -/
theorem C5_coalesce_eval :
    join_equal_gti_boundaries [((0 : ℚ), (1 : ℚ)), (1, 2), (3, 4)] = [(0, 2), (1, 2)] ∧
      ((3 : ℚ), (4 : ℚ)) ∉ join_equal_gti_boundaries [((0 : ℚ), (1 : ℚ)), (1, 2), (3, 4)] := by
  constructor
  · decide
  · decide

set_option maxRecDepth 8192 in
/-- Claim C3 (code bug): for `obs_start = 0`, `obs_end = 1000` and the default
orbital parameters, the only kept window should by the claim be `(0, 1000)`,
but `obs_windows[end_times > observation_end] = observation_end` overwrites
both columns, so the function returns the degenerate `(1000, 1000)`. -/
theorem C3_truncation_eval :
    get_visibility_windows 0 1000 5760 2100 0 = [(1000, 1000)] ∧
      ((0 : ℚ), (1000 : ℚ)) ∉ get_visibility_windows 0 1000 5760 2100 0 := by
  constructor
  · with_unfolding_all decide
  · with_unfolding_all decide

/-- Claim C1, counterexample: the end-to-end scenario (model times
`[0, 100, 200]`, values `[1, 1, 1]`, no explicit windows,
`exposure_length = 50`) does not produce 4 output rows. -/
theorem C1_end_to_end_fails :
    (calculate_lightcurve_from_model [0, 100, 200] [1, 1, 1] none none 50).length ≠ 4 := by
  with_unfolding_all decide

/-- Claim C1, amended: the scenario's output table is empty.  Both generated
visibility windows are replaced by the degenerate interval `(200, 200)` (the
`get_visibility_windows` truncation bug), only one passes the `good` mask, and
its intersection with the default observing window `(0, 200)` is empty. -/
theorem C1_end_to_end_empty :
    calculate_lightcurve_from_model [0, 100, 200] [1, 1, 1] none none 50 = [] := by
  with_unfolding_all decide

/-- Claim C2, counterexample: a model that is constantly `1` on the single live
window `(0, 50)` yields one exposure whose averaged flux is `10/9`, not `1`. -/
theorem C2_flat_model_fails :
    calculate_lightcurve_from_model [0, 50] [1, 1] (some [(0, 50)]) (some [(0, 50)]) 50 =
        [(25, 10 / 9)] ∧ ((10 : ℚ) / 9 ≠ 1) := by
  constructor
  · with_unfolding_all decide
  · norm_num

/-- Claim C2, amended: whenever the interpolated model is constantly `v` on the
whole sampled span of an exposure, the recorded flux is `10 * v / 9` (the
10-point grid sums to `10 v` while the averaging divides by `9` spacings). -/
theorem C2_flat_model_flux (model : List (ℚ × ℚ)) (v t L : ℚ) (hL : 0 < L)
    (h : ∀ x ∈ fine_times t L, interp model x = v) :
    (exposureRow model t L).2 = 10 * v / 9 := by
  have hlen : (fine_times t L).length = 10 := fine_times_length t L
  have hspan : (fine_times t L).getLastD 0 - (fine_times t L).headD 0 = L := by
    rw [fine_times_getLastD, fine_times_headD]
    ring
  have hflux := calculate_flux_eq (fine_times t L) ((fine_times t L).map (interp model))
    (by rw [hlen]; norm_num) (by rw [hspan]; exact hL.ne')
  show calculate_flux (fine_times t L) ((fine_times t L).map (interp model)) = 10 * v / 9
  rw [hflux, map_const_sum _ _ v h, hlen]
  norm_num

/-- Witness for C2's amended claim: the model through `(0,1)` and `(50,1)` is
constantly `1` on the exposure starting at `0` with length `50`. -/
theorem C2_flat_model_flux_witness :
    (0 : ℚ) < 50 ∧ (exposureRow [(0, 1), (50, 1)] 0 50).2 = 10 * 1 / 9 :=
  ⟨by norm_num, C2_flat_model_flux [(0, 1), (50, 1)] 1 0 50 (by norm_num) (by with_unfolding_all decide)⟩

/-- Claim C4, counterexample: for the live window `(0, 75)` with
`exposure_length = 50` the trailing exposure starts at `50`; the claim says its
duration is `75 mod 50 = 25`, but the synthesizer samples (and averages) the
full span `[50, 100]` of length `50`. -/
theorem C4_trailing_exposure_fails :
    (exposure_starts (0, 75) 50).getLastD 0 = 50 ∧
      (fine_times 50 50).getLastD 0 - (fine_times 50 50).headD 0 = 50 ∧
      (50 : ℚ) ≠ 25 := by
  refine ⟨by with_unfolding_all decide, ?_, by norm_num⟩
  rw [fine_times_getLastD, fine_times_headD]
  norm_num

/-- Claim C4, amended: a live window `(a, b)` with `exposure_length = L` yields
exactly `⌈(b - a)/L⌉` exposures, at starts `a + i·L < b`; every emitted
exposure — the trailing partial one included — is sampled over the full span
`L`, never over the remainder `D mod L`. -/
theorem C4_exposure_count (a b L : ℚ) (hab : a < b) (hL : 0 < L) :
    (exposure_starts (a, b) L).length = ⌈(b - a) / L⌉₊ ∧
      (∀ t ∈ exposure_starts (a, b) L,
        (fine_times t L).getLastD 0 - (fine_times t L).headD 0 = L) ∧
      (∀ t : ℚ, t ∈ exposure_starts (a, b) L ↔
        ∃ i : ℕ, t = a + (i : ℚ) * L ∧ a + (i : ℚ) * L < b) := by
  refine ⟨exposure_starts_length a b L hL, fun t _ => ?_, exposure_starts_mem a b L hL⟩
  rw [fine_times_getLastD, fine_times_headD]
  ring

/-- Witness for C4's amended claim at the window `(0, 75)`, `L = 50`. -/
theorem C4_exposure_count_witness :
    (0 : ℚ) < 75 ∧ (0 : ℚ) < 50 ∧
      ((exposure_starts ((0 : ℚ), (75 : ℚ)) 50).length = ⌈((75 : ℚ) - 0) / 50⌉₊ ∧
        (∀ t ∈ exposure_starts ((0 : ℚ), (75 : ℚ)) 50,
          (fine_times t 50).getLastD 0 - (fine_times t 50).headD 0 = 50) ∧
        (∀ t : ℚ, t ∈ exposure_starts ((0 : ℚ), (75 : ℚ)) 50 ↔
          ∃ i : ℕ, t = 0 + (i : ℚ) * 50 ∧ 0 + (i : ℚ) * 50 < 75)) :=
  ⟨by norm_num, by norm_num, C4_exposure_count 0 75 50 (by norm_num) (by norm_num)⟩

/-- Claim C10: every emitted exposure with slice start `t` records the time
`t + exposure_length/2` and samples the interpolant at 10 points spanning
exactly `[t, t + exposure_length]`; nothing truncates the grid at the window's
end (the window bound is only used to generate the starts). -/
theorem C10_exposure_sampling (model : List (ℚ × ℚ)) (ow : ℚ × ℚ) (L t : ℚ)
    (ht : t ∈ exposure_starts ow L) :
    (exposureRow model t L).1 = t + L / 2 ∧
      (fine_times t L).length = 10 ∧
      (fine_times t L).headD 0 = t ∧
      (fine_times t L).getLastD 0 = t + L :=
  ⟨rfl, fine_times_length t L, fine_times_headD t L, fine_times_getLastD t L⟩

/-- Witness for C10: the trailing exposure of window `(0, 75)` with `L = 50`
starts at `t = 50`; its sampled span ends at `100 > 75` and its recorded
midpoint `75` sits exactly at the window end. -/
theorem C10_exposure_sampling_witness :
    (50 : ℚ) ∈ exposure_starts ((0 : ℚ), (75 : ℚ)) 50 ∧
      ((exposureRow [] 50 50).1 = 50 + 50 / 2 ∧
        (fine_times 50 50).length = 10 ∧
        (fine_times 50 50).headD 0 = 50 ∧
        (fine_times 50 50).getLastD 0 = 50 + 50) ∧
      (75 : ℚ) < 50 + 50 :=
  ⟨by with_unfolding_all decide, C10_exposure_sampling [] (0, 75) 50 50 (by with_unfolding_all decide), by norm_num⟩

/-- Claim C9: on a uniformly spaced grid of `n ≥ 2` points with positive
spacing, `calculate_flux` returns `sum(values) / (n - 1)` — i.e. `n/(n-1)`
times the mean of the values; with the synthesizer's 10-point grids this is
`10/9` times the mean. -/
theorem C9_calculate_flux_mean (a d : ℚ) (n : ℕ) (values : List ℚ)
    (hn : 2 ≤ n) (hd : 0 < d) :
    calculate_flux (uniformGrid a d n) values = values.sum / ((n : ℚ) - 1) := by
  have hlen := uniformGrid_length a d n
  have hone : 1 ≤ n := le_trans (by norm_num) hn
  have hspan : (uniformGrid a d n).getLastD 0 - (uniformGrid a d n).headD 0 =
      ((n : ℚ) - 1) * d := by
    rw [uniformGrid_getLastD n a d hone 0, uniformGrid_headD a d n hone]
    ring
  have hden : ((n : ℚ) - 1) ≠ 0 := by
    have h2' : (2 : ℚ) ≤ (n : ℚ) := by exact_mod_cast hn
    intro h
    rw [sub_eq_zero] at h
    rw [h] at h2'
    norm_num at h2'
  rw [calculate_flux_eq _ _ (by rw [hlen]; exact hn)
    (by rw [hspan]; exact mul_ne_zero hden hd.ne'), hlen]

/-- Witness for C9: ten unit values on a 10-point unit-spaced grid average to
`10/9`, not `1`. -/
theorem C9_calculate_flux_mean_witness :
    calculate_flux (uniformGrid 0 1 10) (List.replicate 10 1) =
        (List.replicate 10 (1 : ℚ)).sum / ((10 : ℚ) - 1) ∧
      (List.replicate 10 (1 : ℚ)).sum / ((10 : ℚ) - 1) = 10 / 9 := by
  constructor
  · exact_mod_cast C9_calculate_flux_mean 0 1 10 (List.replicate 10 1)
      (by norm_num) (by norm_num)
  · norm_num

theorem sweepStep_none (S0 E0 S1 E1 : List ℚ) (σ : SweepState) (ev : ℚ × ℚ × Bool)
    (h : stepS S0 S1 ev.2.1 = none) : sweepStep S0 E0 S1 E1 σ ev = σ := by
  obtain ⟨a, e, t⟩ := ev
  unfold stepS at h
  cases t <;>
  · simp only [sweepStep]
    cases h0 : lookVal S0 e with
    | none =>
      cases h1 : lookVal S1 e with
      | none => simp [h0, h1]
      | some j => simp [h0, h1]
    | some i =>
      cases h1 : lookVal S1 e with
      | none => simp [h0, h1]
      | some j =>
        rw [h0, h1] at h
        exact Option.noConfusion h

theorem sweepStep_some (S0 E0 S1 E1 : List ℚ) (σ : SweepState) (ev : ℚ × ℚ × Bool)
    (s : ℚ) (h : stepS S0 S1 ev.2.1 = some s) :
    sweepStep S0 E0 S1 E1 σ ev =
      stepNF (condOther (if ev.2.2 then S0 else S1) (if ev.2.2 then E0 else E1)
        ev.2.1 s) ev.2.1 s σ := by
  obtain ⟨a, e, t⟩ := ev
  unfold stepS at h
  cases t
  · cases h0 : lookVal S0 e with
    | none =>
      simp only [h0] at h
      exact Option.noConfusion h
    | some i =>
      cases h1 : lookVal S1 e with
      | none =>
        simp only [h0, h1] at h
        exact Option.noConfusion h
      | some j =>
        simp only [h0, h1, Option.some.injEq] at h
        subst h
        simp only [sweepStep, stepNF, condOther, Bool.false_eq_true, eq_self_iff_true,
          if_true, if_false, h0, h1]
  · cases h0 : lookVal S0 e with
    | none =>
      simp only [h0] at h
      exact Option.noConfusion h
    | some i =>
      cases h1 : lookVal S1 e with
      | none =>
        simp only [h0, h1] at h
        exact Option.noConfusion h
      | some j =>
        simp only [h0, h1, Option.some.injEq] at h
        subst h
        simp only [sweepStep, stepNF, condOther, Bool.false_eq_true, eq_self_iff_true,
          if_true, if_false, h0, h1]
        rw [max_comm (S0.getD i 0) (S1.getD j 0)]

theorem stepNF_comm (cA cB : Bool) (e s : ℚ) (σ : SweepState) :
    stepNF cB e s (stepNF cA e s σ) = stepNF cA e s (stepNF cB e s σ) := by
  unfold stepNF
  by_cases h1 : s ≤ σ.last
  · simp [h1]
  · cases cA <;> cases cB <;> simp only [Bool.false_eq_true, Bool.true_eq_false,
      if_true, if_false, ite_true, ite_false, if_neg h1] <;>
    · first
      | rfl
      | (by_cases h2 : s ≤ e <;> simp [h1, h2])

theorem sweepStep_comm (S0 E0 S1 E1 : List ℚ) (σ : SweepState) (a b : ℚ × ℚ × Bool)
    (hab : a.2.1 = b.2.1) :
    sweepStep S0 E0 S1 E1 (sweepStep S0 E0 S1 E1 σ a) b =
      sweepStep S0 E0 S1 E1 (sweepStep S0 E0 S1 E1 σ b) a := by
  cases hS : stepS S0 S1 a.2.1 with
  | none =>
    have hSb : stepS S0 S1 b.2.1 = none := hab ▸ hS
    rw [sweepStep_none S0 E0 S1 E1 σ a hS, sweepStep_none S0 E0 S1 E1 σ b hSb,
      sweepStep_none S0 E0 S1 E1 σ a hS]
  | some s =>
    have hSb : stepS S0 S1 b.2.1 = some s := hab ▸ hS
    rw [sweepStep_some S0 E0 S1 E1 σ a s hS, sweepStep_some S0 E0 S1 E1 σ b s hSb,
      sweepStep_some S0 E0 S1 E1 _ a s hS, sweepStep_some S0 E0 S1 E1 _ b s hSb,
      hab, stepNF_comm]

theorem foldl_bubble (S0 E0 S1 E1 : List ℚ) (h : ℚ × ℚ × Bool) :
    ∀ (u v : List (ℚ × ℚ × Bool)) (σ : SweepState),
      (∀ x ∈ u, x.2.1 = h.2.1) →
      List.foldl (sweepStep S0 E0 S1 E1) σ (u ++ h :: v) =
        List.foldl (sweepStep S0 E0 S1 E1) (sweepStep S0 E0 S1 E1 σ h) (u ++ v)
  | [], v, σ, _ => by simp
  | a :: u, v, σ, hu => by
    have ha : a.2.1 = h.2.1 := hu a (by simp)
    have ih := foldl_bubble S0 E0 S1 E1 h u v (sweepStep S0 E0 S1 E1 σ a)
      (fun x hx => hu x (by simp [hx]))
    simp only [List.cons_append, List.foldl_cons] at ih ⊢
    rw [ih, sweepStep_comm S0 E0 S1 E1 σ a h ha]

theorem foldl_perm_sorted (S0 E0 S1 E1 : List ℚ) :
    ∀ (l1 l2 : List (ℚ × ℚ × Bool)) (σ : SweepState), l1.Perm l2 →
      l1.Pairwise evLE → l2.Pairwise evLE →
      List.foldl (sweepStep S0 E0 S1 E1) σ l1 = List.foldl (sweepStep S0 E0 S1 E1) σ l2
  | [], _, σ, hp, _, _ => by rw [hp.symm.eq_nil]
  | h :: t, l2, σ, hp, hs1, hs2 => by
    have hm : h ∈ l2 := hp.mem_iff.mp (List.mem_cons_self h t)
    obtain ⟨u, v, rfl⟩ := List.append_of_mem hm
    have hu : ∀ x ∈ u, x.2.1 = h.2.1 := by
      intro x hx
      have h1 : evLE x h :=
        (List.pairwise_append.mp hs2).2.2 x hx h (List.mem_cons_self h v)
      have h2 : evLE h x := by
        have hx2 : x ∈ h :: t := hp.mem_iff.mpr (by simp [hx])
        rcases List.mem_cons.mp hx2 with rfl | hxt
        · exact le_refl _
        · exact (List.pairwise_cons.mp hs1).1 x hxt
      exact le_antisymm h1 h2
    have hperm : t.Perm (u ++ v) := (hp.trans List.perm_middle).cons_inv
    have hst : t.Pairwise evLE := (List.pairwise_cons.mp hs1).2
    have hsu : (u ++ v).Pairwise evLE := hs2.sublist
      (List.Sublist.append_left (List.sublist_cons_self h v) u)
    rw [foldl_bubble S0 E0 S1 E1 h u v σ hu, List.foldl_cons]
    exact foldl_perm_sorted S0 E0 S1 E1 t (u ++ v) (sweepStep S0 E0 S1 E1 σ h) hperm hst hsu

theorem foldl_out_initFree (S0 E0 S1 E1 : List ℚ) :
    ∀ (l : List (ℚ × ℚ × Bool)) (v1 v2 : ℚ) (o : List (ℚ × ℚ)),
      (∀ ev ∈ l, ∀ s, stepS S0 S1 ev.2.1 = some s → v1 < s ∧ v2 < s) →
      (List.foldl (sweepStep S0 E0 S1 E1) ⟨v1, o⟩ l).out =
        (List.foldl (sweepStep S0 E0 S1 E1) ⟨v2, o⟩ l).out
  | [], _, _, _, _ => rfl
  | ev :: l, v1, v2, o, hb => by
    have hbl : ∀ x ∈ l, ∀ s, stepS S0 S1 x.2.1 = some s → v1 < s ∧ v2 < s :=
      fun x hx => hb x (by simp [hx])
    cases hS : stepS S0 S1 ev.2.1 with
    | none =>
      rw [List.foldl_cons, List.foldl_cons, sweepStep_none S0 E0 S1 E1 _ ev hS,
        sweepStep_none S0 E0 S1 E1 _ ev hS]
      exact foldl_out_initFree S0 E0 S1 E1 l v1 v2 o hbl
    | some s =>
      obtain ⟨hv1, hv2⟩ := hb ev (List.mem_cons_self ev l) s hS
      rw [List.foldl_cons, List.foldl_cons, sweepStep_some S0 E0 S1 E1 _ ev s hS,
        sweepStep_some S0 E0 S1 E1 _ ev s hS]
      cases hc : condOther (if ev.2.2 then S0 else S1) (if ev.2.2 then E0 else E1)
          ev.2.1 s with
      | false =>
        simp only [stepNF, hc, if_neg (not_le.mpr hv1), if_neg (not_le.mpr hv2),
          Bool.false_eq_true, if_false]
      | true =>
        simp only [stepNF, hc, if_neg (not_le.mpr hv1), if_neg (not_le.mpr hv2), if_true]
        exact foldl_out_initFree S0 E0 S1 E1 l v1 v2 o hbl

theorem foldl_out_invariant (S0 E0 S1 E1 : List ℚ) (P : ℚ × ℚ → Prop) :
    ∀ (l : List (ℚ × ℚ × Bool)) (σ : SweepState),
      (∀ q ∈ σ.out, P q) →
      (∀ ev ∈ l, ∀ s, stepS S0 S1 ev.2.1 = some s → P (s, ev.2.1)) →
      ∀ q ∈ (List.foldl (sweepStep S0 E0 S1 E1) σ l).out, P q
  | [], _, hσ, _ => hσ
  | ev :: l, σ, hσ, hl => by
    have hll : ∀ x ∈ l, ∀ s, stepS S0 S1 x.2.1 = some s → P (s, x.2.1) :=
      fun x hx => hl x (by simp [hx])
    cases hS : stepS S0 S1 ev.2.1 with
    | none =>
      rw [List.foldl_cons, sweepStep_none S0 E0 S1 E1 σ ev hS]
      exact foldl_out_invariant S0 E0 S1 E1 P l σ hσ hll
    | some s =>
      rw [List.foldl_cons, sweepStep_some S0 E0 S1 E1 σ ev s hS]
      apply foldl_out_invariant S0 E0 S1 E1 P l _ _ hll
      intro q hq
      by_cases h1 : s ≤ σ.last
      · simp only [stepNF, if_pos h1] at hq
        exact hσ q hq
      · cases hc : condOther (if ev.2.2 then S0 else S1) (if ev.2.2 then E0 else E1)
            ev.2.1 s with
        | false =>
          simp only [stepNF, if_neg h1, hc, Bool.false_eq_true, if_false,
            List.mem_append, List.mem_singleton] at hq
          rcases hq with hq | rfl
          · exact hσ q hq
          · exact hl ev (List.mem_cons_self ev l) s hS
        | true =>
          simp only [stepNF, if_neg h1, hc, if_true] at hq
          exact hσ q hq

theorem sweepStep_flip (S0 E0 S1 E1 : List ℚ) (σ : SweepState) (ev : ℚ × ℚ × Bool) :
    sweepStep S1 E1 S0 E0 σ (evFlip ev) = sweepStep S0 E0 S1 E1 σ ev := by
  obtain ⟨a, e, t⟩ := ev
  cases t <;> rfl

theorem foldl_flip (S0 E0 S1 E1 : List ℚ) :
    ∀ (l : List (ℚ × ℚ × Bool)) (σ : SweepState),
      List.foldl (sweepStep S1 E1 S0 E0) σ (l.map evFlip) =
        List.foldl (sweepStep S0 E0 S1 E1) σ l
  | [], _ => rfl
  | ev :: l, σ => by
    rw [List.map_cons, List.foldl_cons, List.foldl_cons, sweepStep_flip]
    exact foldl_flip S0 E0 S1 E1 l _

theorem argmaxIdx_none : ∀ l : List ℚ, argmaxIdx l = none ↔ l = []
  | [] => by simp [argmaxIdx]
  | x :: xs => by
    constructor
    · intro h
      exfalso
      unfold argmaxIdx at h
      cases h0 : argmaxIdx xs with
      | none => rw [h0] at h; exact Option.noConfusion h
      | some j =>
        rw [h0] at h
        dsimp only at h
        split at h <;> exact Option.noConfusion h
    · intro h
      exact List.noConfusion h

theorem argmaxIdx_spec : ∀ (l : List ℚ) (i : ℕ), argmaxIdx l = some i →
    i < l.length ∧ l.getD i 0 ∈ l ∧ ∀ x ∈ l, x ≤ l.getD i 0
  | [], i, h => Option.noConfusion h
  | x :: xs, i, h => by
    unfold argmaxIdx at h
    cases h0 : argmaxIdx xs with
    | none =>
      rw [h0] at h
      obtain rfl := (argmaxIdx_none xs).mp h0
      injection h with h
      subst h
      simp
    | some j =>
      rw [h0] at h
      dsimp only at h
      obtain ⟨hj, hmem, hmax⟩ := argmaxIdx_spec xs j h0
      split at h
      next hx =>
        injection h with h
        subst h
        refine ⟨by simpa using hj, ?_, ?_⟩
        · rw [List.getD_cons_succ]
          exact List.mem_cons_of_mem x hmem
        · rw [List.getD_cons_succ]
          intro y hy
          rcases List.mem_cons.mp hy with rfl | hyt
          · exact le_of_lt hx
          · exact hmax y hyt
      next hx =>
        injection h with h
        subst h
        refine ⟨by simp, by simp, ?_⟩
        intro y hy
        rw [List.getD_cons_zero]
        rcases List.mem_cons.mp hy with rfl | hyt
        · exact le_refl y
        · exact le_trans (hmax y hyt) (not_lt.mp hx)

theorem takeWhile_getD (p : ℚ → Bool) :
    ∀ (l : List ℚ) (i : ℕ), i < (l.takeWhile p).length →
      (l.takeWhile p).getD i 0 = l.getD i 0
  | [], i, h => by simp at h
  | a :: l, i, h => by
    by_cases ha : p a
    · rw [List.takeWhile_cons_of_pos ha] at h ⊢
      cases i with
      | zero => simp
      | succ k =>
        rw [List.getD_cons_succ, List.getD_cons_succ]
        exact takeWhile_getD p l k (by simpa using h)
    · rw [List.takeWhile_cons_of_neg ha] at h
      simp at h

theorem filter_lt_eq_takeWhile (e : ℚ) :
    ∀ (S : List ℚ), S.Pairwise (· < ·) →
      S.filter (fun x => decide (x < e)) = S.takeWhile (fun x => decide (x < e))
  | [], _ => rfl
  | a :: S, hp => by
    obtain ⟨hhead, htail⟩ := List.pairwise_cons.mp hp
    by_cases ha : a < e
    · rw [List.filter_cons_of_pos (by simpa using ha),
        List.takeWhile_cons_of_pos (by simpa using ha),
        filter_lt_eq_takeWhile e S htail]
    · rw [List.filter_cons_of_neg (by simpa using ha),
        List.takeWhile_cons_of_neg (by simpa using ha)]
      apply List.filter_eq_nil_iff.mpr
      intro x hx
      simp only [decide_eq_true_eq]
      intro hxe
      exact ha (lt_trans (hhead x hx) hxe)

theorem lookVal_spec (S : List ℚ) (e : ℚ) (hs : S.Pairwise (· < ·)) (i : ℕ)
    (h : lookVal S e = some i) :
    i < S.length ∧ S.getD i 0 ∈ S ∧ S.getD i 0 < e ∧
      ∀ x ∈ S, x < e → x ≤ S.getD i 0 := by
  unfold lookVal at h
  obtain ⟨hi, hmem, hmax⟩ := argmaxIdx_spec _ i h
  have hft := filter_lt_eq_takeWhile e S hs
  have hgetD : (S.filter (fun x => decide (x < e))).getD i 0 = S.getD i 0 := by
    rw [hft] at hi ⊢
    exact takeWhile_getD _ S i hi
  rw [hgetD] at hmem hmax
  have hmem2 := List.mem_filter.mp hmem
  refine ⟨lt_of_lt_of_le hi (List.length_filter_le _ S), hmem2.1,
    by simpa using hmem2.2, ?_⟩
  intro x hx hxe
  exact hmax x (List.mem_filter.mpr ⟨hx, by simpa using hxe⟩)

theorem stepS_eq_some (S0 S1 : List ℚ) (e s : ℚ) (h : stepS S0 S1 e = some s) :
    ∃ i j, lookVal S0 e = some i ∧ lookVal S1 e = some j ∧
      s = max (S0.getD i 0) (S1.getD j 0) := by
  unfold stepS at h
  cases h0 : lookVal S0 e with
  | none => rw [h0] at h; exact Option.noConfusion h
  | some i =>
    cases h1 : lookVal S1 e with
    | none => rw [h0, h1] at h; exact Option.noConfusion h
    | some j =>
      rw [h0, h1] at h
      injection h with h
      exact ⟨i, j, rfl, rfl, h.symm⟩

theorem stepS_bound (S0 S1 : List ℚ) (h0 : S0.Pairwise (· < ·))
    (h1 : S1.Pairwise (· < ·)) (e s : ℚ) (h : stepS S0 S1 e = some s)
    (c : ℚ) (hc : c ∈ S0 ∨ c ∈ S1) (hce : c < e) : c ≤ s := by
  obtain ⟨i, j, hi, hj, rfl⟩ := stepS_eq_some S0 S1 e s h
  rcases hc with hc | hc
  · exact le_trans ((lookVal_spec S0 e h0 i hi).2.2.2 c hc hce) (le_max_left _ _)
  · exact le_trans ((lookVal_spec S1 e h1 j hj).2.2.2 c hc hce) (le_max_right _ _)


theorem chain'_pairwise_of_trans {R : ℚ × ℚ → ℚ × ℚ → Prop}
    (htr : ∀ a b c, R a b → R b c → R a c) :
    ∀ l : List (ℚ × ℚ), l.Chain' R → l.Pairwise R
  | [], _ => List.Pairwise.nil
  | [a], _ => by simp
  | a :: b :: l, hc => by
    obtain ⟨hab, hc2⟩ := List.chain'_cons.mp hc
    have ih := chain'_pairwise_of_trans htr (b :: l) hc2
    refine List.pairwise_cons.mpr ⟨?_, ih⟩
    intro x hx
    rcases List.mem_cons.mp hx with rfl | hxl
    · exact hab
    · exact htr a b x hab ((List.pairwise_cons.mp ih).1 x hxl)

theorem chain_gap_startLt : ∀ (g : List (ℚ × ℚ)), (∀ r ∈ g, r.1 < r.2) →
    g.Chain' (fun r s => r.2 ≤ s.1) → g.Chain' (fun r s => r.1 < s.1)
  | [], _, _ => List.chain'_nil
  | [_], _, _ => List.chain'_singleton _
  | a :: b :: g, hv, hc => by
    obtain ⟨hab, hc2⟩ := List.chain'_cons.mp hc
    exact List.chain'_cons.mpr ⟨lt_of_lt_of_le (hv a (by simp)) hab,
      chain_gap_startLt (b :: g) (fun r hr => hv r (by simp at hr ⊢; tauto)) hc2⟩

theorem chain_gap_endLe : ∀ (g : List (ℚ × ℚ)), (∀ r ∈ g, r.1 < r.2) →
    g.Chain' (fun r s => r.2 ≤ s.1) → g.Chain' (fun r s => r.2 ≤ s.2)
  | [], _, _ => List.chain'_nil
  | [_], _, _ => List.chain'_singleton _
  | a :: b :: g, hv, hc => by
    obtain ⟨hab, hc2⟩ := List.chain'_cons.mp hc
    exact List.chain'_cons.mpr ⟨le_trans hab (le_of_lt (hv b (by simp))),
      chain_gap_endLe (b :: g) (fun r hr => hv r (by simp at hr ⊢; tauto)) hc2⟩

theorem mergePass_props : ∀ (g : List (ℚ × ℚ)), (∀ r ∈ g, r.1 < r.2) →
    g.Chain' (fun r s => r.2 ≤ s.1) →
    (∀ r ∈ mergePass g, r.1 < r.2) ∧
      (mergePass g).Chain' (fun r s => r.1 < s.1) ∧
      (mergePass g).Chain' (fun r s => r.2 ≤ s.2)
  | [], _, _ => by simp [mergePass]
  | [a], _, _ => by simp [mergePass]
  | [a, b], hv, hc => by
    have hab : a.2 ≤ b.1 := (List.chain'_cons.mp hc).1
    have ha := hv a (by simp)
    have hb := hv b (by simp)
    have hexp : mergePass [a, b] = [if a.2 = b.1 then (a.1, b.2) else a] := rfl
    rw [hexp]
    refine ⟨?_, List.chain'_singleton _, List.chain'_singleton _⟩
    intro r hr
    rcases List.mem_singleton.mp hr with rfl
    by_cases h1 : a.2 = b.1
    · rw [if_pos h1]
      show a.1 < b.2
      exact lt_trans ha (lt_of_le_of_lt hab hb)
    · rw [if_neg h1]
      exact ha
  | a :: b :: c :: g, hv, hc => by
    have hvt : ∀ r ∈ b :: c :: g, r.1 < r.2 := fun r hr => hv r (by simp at hr ⊢; tauto)
    have hct : (b :: c :: g).Chain' (fun r s => r.2 ≤ s.1) := (List.chain'_cons.mp hc).2
    obtain ⟨ihv, ihs, ihe⟩ := mergePass_props (b :: c :: g) hvt hct
    have hab : a.2 ≤ b.1 := (List.chain'_cons.mp hc).1
    have ha := hv a (by simp)
    have hb := hv b (by simp)
    have hcv := hv c (by simp)
    have hexp : mergePass (a :: b :: c :: g) =
        (if a.2 = b.1 then (a.1, b.2) else a) :: mergePass (b :: c :: g) := rfl
    have hexp2 : mergePass (b :: c :: g) =
        (if b.2 = c.1 then (b.1, c.2) else b) :: mergePass (c :: g) := rfl
    refine ⟨?_, ?_, ?_⟩
    · intro r hr
      rw [hexp] at hr
      rcases List.mem_cons.mp hr with rfl | hrt
      · by_cases h1 : a.2 = b.1
        · rw [if_pos h1]
          show a.1 < b.2
          exact lt_trans ha (lt_of_le_of_lt hab hb)
        · rw [if_neg h1]
          exact ha
      · exact ihv r hrt
    · rw [hexp, hexp2]
      refine List.chain'_cons.mpr ⟨?_, ?_⟩
      · have h1 : ((if a.2 = b.1 then (a.1, b.2) else a)).1 = a.1 := by split <;> rfl
        have h2 : ((if b.2 = c.1 then (b.1, c.2) else b)).1 = b.1 := by split <;> rfl
        rw [h1, h2]
        exact lt_of_lt_of_le ha hab
      · rw [← hexp2]
        exact ihs
    · rw [hexp, hexp2]
      refine List.chain'_cons.mpr ⟨?_, ?_⟩
      · by_cases h1 : a.2 = b.1
        · rw [if_pos h1]
          by_cases h2 : b.2 = c.1
          · rw [if_pos h2]
            show b.2 ≤ c.2
            rw [h2]
            exact le_of_lt hcv
          · rw [if_neg h2]
        · rw [if_neg h1]
          by_cases h2 : b.2 = c.1
          · rw [if_pos h2]
            show a.2 ≤ c.2
            exact le_trans hab (le_of_lt (lt_of_lt_of_le hb (h2 ▸ le_of_lt hcv)))
          · rw [if_neg h2]
            show a.2 ≤ b.2
            exact le_trans hab (le_of_lt hb)
      · rw [← hexp2]
        exact ihe

theorem join_props (g : List (ℚ × ℚ)) (hv : ValidGTI g) :
    (∀ r ∈ join_equal_gti_boundaries g, r.1 < r.2) ∧
      (join_equal_gti_boundaries g).Pairwise (fun r s => r.1 < s.1) ∧
      (join_equal_gti_boundaries g).Pairwise (fun r s => r.2 ≤ s.2) := by
  obtain ⟨hv1, hc⟩ := hv
  have htr1 : ∀ a b c : ℚ × ℚ, a.1 < b.1 → b.1 < c.1 → a.1 < c.1 :=
    fun _ _ _ => lt_trans
  have htr2 : ∀ a b c : ℚ × ℚ, a.2 ≤ b.2 → b.2 ≤ c.2 → a.2 ≤ c.2 :=
    fun _ _ _ => le_trans
  unfold join_equal_gti_boundaries
  by_cases ht : touchingAny g = true
  · rw [if_pos ht]
    obtain ⟨hmv, hms, hme⟩ := mergePass_props g hv1 hc
    exact ⟨hmv, chain'_pairwise_of_trans htr1 _ hms, chain'_pairwise_of_trans htr2 _ hme⟩
  · rw [if_neg ht]
    exact ⟨hv1, chain'_pairwise_of_trans htr1 _ (chain_gap_startLt g hv1 hc),
      chain'_pairwise_of_trans htr2 _ (chain_gap_endLe g hv1 hc)⟩

theorem join_ne_nil (g : List (ℚ × ℚ)) (h : g ≠ []) :
    join_equal_gti_boundaries g ≠ [] := by
  unfold join_equal_gti_boundaries
  by_cases ht : touchingAny g = true
  · rw [if_pos ht]
    obtain ⟨a, b, rest, rfl⟩ := touchingAny_true_shape ht
    simp [mergePass]
  · rw [if_neg ht]
    exact h

theorem staircase (l : List (ℚ × ℚ)) (hv : ∀ r ∈ l, r.1 < r.2)
    (hs : l.Pairwise (fun r s => r.1 < s.1)) (he : l.Pairwise (fun r s => r.2 ≤ s.2))
    (e : ℚ) (r0 : ℚ × ℚ) (hr0 : r0 ∈ l) (hr0e : r0.2 = e)
    (i : ℕ) (hl : lookVal (l.map Prod.fst) e = some i) :
    ∃ r ∈ l, r.1 = (l.map Prod.fst).getD i 0 ∧ e ≤ r.2 := by
  have hsf : (l.map Prod.fst).Pairwise (· < ·) := List.pairwise_map.mpr hs
  obtain ⟨_, hmem, hlt, hmax⟩ := lookVal_spec (l.map Prod.fst) e hsf i hl
  obtain ⟨r, hr, hr1⟩ := List.mem_map.mp hmem
  have hr01 : r0.1 ≤ (l.map Prod.fst).getD i 0 := by
    apply hmax
    · exact List.mem_map_of_mem Prod.fst hr0
    · rw [← hr0e]
      exact hv r0 hr0
  obtain ⟨n, hn⟩ := List.mem_iff_get.mp hr
  obtain ⟨m, hm⟩ := List.mem_iff_get.mp hr0
  refine ⟨r, hr, hr1, ?_⟩
  rcases lt_trichotomy (m : ℕ) (n : ℕ) with hmn | hmn | hmn
  · have := List.pairwise_iff_get.mp he m n hmn
    rw [hm, hn] at this
    rw [← hr0e]
    exact this
  · have : r0 = r := by
      rw [← hm, ← hn]
      congr 1
      exact Fin.ext hmn
    rw [← this, hr0e]
  · exfalso
    have := List.pairwise_iff_get.mp hs n m hmn
    rw [hm, hn] at this
    rw [hr1] at this
    exact absurd (lt_of_le_of_lt hr01 this) (lt_irrefl _)

theorem sweepEvents_sorted (A B : List (ℚ × ℚ)) : (sweepEvents A B).Pairwise evLE :=
  List.sorted_insertionSort evLE _

theorem sweepEvents_perm (A B : List (ℚ × ℚ)) :
    (sweepEvents A B).Perm
      (A.map (fun r => (r.1, r.2, false)) ++ B.map (fun r => (r.1, r.2, true))) :=
  List.perm_insertionSort evLE _

theorem sweepEvents_mem (A B : List (ℚ × ℚ)) (x : ℚ × ℚ × Bool)
    (hx : x ∈ sweepEvents A B) : (x.1, x.2.1) ∈ A ∨ (x.1, x.2.1) ∈ B := by
  have hx2 := (sweepEvents_perm A B).mem_iff.mp hx
  rcases List.mem_append.mp hx2 with h | h
  · obtain ⟨r, hr, rfl⟩ := List.mem_map.mp h
    left
    simpa using hr
  · obtain ⟨r, hr, rfl⟩ := List.mem_map.mp h
    right
    simpa using hr

theorem sweepEvents_ne_nil (A B : List (ℚ × ℚ)) (hA : A ≠ []) :
    sweepEvents A B ≠ [] := by
  intro h
  have hp := sweepEvents_perm A B
  rw [h] at hp
  have h2 := hp.symm.eq_nil
  rcases List.append_eq_nil.mp h2 with ⟨hA2, _⟩
  exact hA (List.map_eq_nil_iff.mp hA2)

theorem cross_two_gtis_events (g0 g1 : List (ℚ × ℚ)) (h : ℚ × ℚ × Bool)
    (t : List (ℚ × ℚ × Bool))
    (he : sweepEvents (join_equal_gti_boundaries g0) (join_equal_gti_boundaries g1) =
      h :: t) :
    cross_two_gtis g0 g1 =
      (List.foldl
        (sweepStep ((join_equal_gti_boundaries g0).map Prod.fst)
          ((join_equal_gti_boundaries g0).map Prod.snd)
          ((join_equal_gti_boundaries g1).map Prod.fst)
          ((join_equal_gti_boundaries g1).map Prod.snd))
        ⟨h.1 - 1, []⟩ (h :: t)).out := by
  simp only [cross_two_gtis]
  rw [he]

theorem cross_two_gtis_no_events (g0 g1 : List (ℚ × ℚ))
    (he : sweepEvents (join_equal_gti_boundaries g0) (join_equal_gti_boundaries g1) = []) :
    cross_two_gtis g0 g1 = [] := by
  simp only [cross_two_gtis]
  rw [he]

/-- Claim C6: on valid (sorted, non-overlapping, nonempty) interval lists the
intersection is symmetric: `cross_two_gtis A B = cross_two_gtis B A`.  The
candidate start of each end event is the same whichever series the event
belongs to, iterations of equal-end events commute, so the end-sorted sweep is
independent of the tie order, and the `conc_start[0] - 1` initialisation of
`last_end` lies below every candidate start. -/
theorem C6_cross_comm (A B : List (ℚ × ℚ)) (hA : ValidGTI A) (hB : ValidGTI B)
    (hAne : A ≠ []) (hBne : B ≠ []) :
    cross_two_gtis A B = cross_two_gtis B A := by
  obtain ⟨hvA', hsA', heA'⟩ := join_props A hA
  obtain ⟨hvB', hsB', heB'⟩ := join_props B hB
  have hA'ne := join_ne_nil A hAne
  have hB'ne := join_ne_nil B hBne
  have hSA : ((join_equal_gti_boundaries A).map Prod.fst).Pairwise (· < ·) :=
    List.pairwise_map.mpr hsA'
  have hSB : ((join_equal_gti_boundaries B).map Prod.fst).Pairwise (· < ·) :=
    List.pairwise_map.mpr hsB'
  obtain ⟨h1, t1, he1⟩ := List.exists_cons_of_ne_nil
    (sweepEvents_ne_nil (join_equal_gti_boundaries A) (join_equal_gti_boundaries B) hA'ne)
  obtain ⟨h2, t2, he2⟩ := List.exists_cons_of_ne_nil
    (sweepEvents_ne_nil (join_equal_gti_boundaries B) (join_equal_gti_boundaries A) hB'ne)
  have hsort1 : (h1 :: t1).Pairwise evLE := he1 ▸ sweepEvents_sorted _ _
  have hsort2 : (h2 :: t2).Pairwise evLE := he2 ▸ sweepEvents_sorted _ _
  have hsort2f : ((h2 :: t2).map evFlip).Pairwise evLE :=
    List.pairwise_map.mpr (hsort2.imp (fun h => h))
  have p1 : (h1 :: t1).Perm
      ((join_equal_gti_boundaries A).map (fun r => (r.1, r.2, false)) ++
        (join_equal_gti_boundaries B).map (fun r => (r.1, r.2, true))) :=
    he1 ▸ sweepEvents_perm _ _
  have p2 : (h2 :: t2).Perm
      ((join_equal_gti_boundaries B).map (fun r => (r.1, r.2, false)) ++
        (join_equal_gti_boundaries A).map (fun r => (r.1, r.2, true))) :=
    he2 ▸ sweepEvents_perm _ _
  have p2f := p2.map evFlip
  rw [List.map_append, List.map_map, List.map_map] at p2f
  have hcomp1 : evFlip ∘ (fun r : ℚ × ℚ => (r.1, r.2, false)) =
      (fun r : ℚ × ℚ => (r.1, r.2, true)) := rfl
  have hcomp2 : evFlip ∘ (fun r : ℚ × ℚ => (r.1, r.2, true)) =
      (fun r : ℚ × ℚ => (r.1, r.2, false)) := rfl
  rw [hcomp1, hcomp2] at p2f
  have hperm : ((h2 :: t2).map evFlip).Perm (h1 :: t1) :=
    (p2f.trans List.perm_append_comm).trans p1.symm
  have hbound : ∀ ev ∈ h1 :: t1, ∀ s,
      stepS ((join_equal_gti_boundaries A).map Prod.fst)
        ((join_equal_gti_boundaries B).map Prod.fst) ev.2.1 = some s →
      h1.1 - 1 < s ∧ h2.1 - 1 < s := by
    intro ev hev s hs
    constructor
    · have hm1 : (h1.1, h1.2.1) ∈ join_equal_gti_boundaries A ∨
          (h1.1, h1.2.1) ∈ join_equal_gti_boundaries B :=
        sweepEvents_mem _ _ h1 (by rw [he1]; exact List.mem_cons_self _ _)
      have hlt1 : h1.1 < h1.2.1 := by
        rcases hm1 with h | h
        · exact hvA' _ h
        · exact hvB' _ h
      have hle1 : h1.2.1 ≤ ev.2.1 := by
        rcases List.mem_cons.mp hev with rfl | ht
        · exact le_refl _
        · exact (List.pairwise_cons.mp hsort1).1 ev ht
      have hcmem : h1.1 ∈ (join_equal_gti_boundaries A).map Prod.fst ∨
          h1.1 ∈ (join_equal_gti_boundaries B).map Prod.fst := by
        rcases hm1 with h | h
        · exact Or.inl (List.mem_map_of_mem Prod.fst h)
        · exact Or.inr (List.mem_map_of_mem Prod.fst h)
      have hb := stepS_bound _ _ hSA hSB ev.2.1 s hs h1.1 hcmem
        (lt_of_lt_of_le hlt1 hle1)
      linarith
    · have hm2 : (h2.1, h2.2.1) ∈ join_equal_gti_boundaries B ∨
          (h2.1, h2.2.1) ∈ join_equal_gti_boundaries A :=
        sweepEvents_mem _ _ h2 (by rw [he2]; exact List.mem_cons_self _ _)
      have hlt2 : h2.1 < h2.2.1 := by
        rcases hm2 with h | h
        · exact hvB' _ h
        · exact hvA' _ h
      have hle2 : h2.2.1 ≤ ev.2.1 := by
        have hev2 : ev ∈ (h2 :: t2).map evFlip := hperm.mem_iff.mpr hev
        obtain ⟨w, hw, hwev⟩ := List.mem_map.mp hev2
        have hww : h2.2.1 ≤ w.2.1 := by
          rcases List.mem_cons.mp hw with rfl | hwt
          · exact le_refl _
          · exact (List.pairwise_cons.mp hsort2).1 w hwt
        rw [← hwev]
        exact hww
      have hcmem : h2.1 ∈ (join_equal_gti_boundaries A).map Prod.fst ∨
          h2.1 ∈ (join_equal_gti_boundaries B).map Prod.fst := by
        rcases hm2 with h | h
        · exact Or.inr (List.mem_map_of_mem Prod.fst h)
        · exact Or.inl (List.mem_map_of_mem Prod.fst h)
      have hb := stepS_bound _ _ hSA hSB ev.2.1 s hs h2.1 hcmem
        (lt_of_lt_of_le hlt2 hle2)
      linarith
  rw [cross_two_gtis_events A B h1 t1 he1, cross_two_gtis_events B A h2 t2 he2,
    ← foldl_flip ((join_equal_gti_boundaries B).map Prod.fst)
      ((join_equal_gti_boundaries B).map Prod.snd)
      ((join_equal_gti_boundaries A).map Prod.fst)
      ((join_equal_gti_boundaries A).map Prod.snd) (h2 :: t2) ⟨h2.1 - 1, []⟩,
    foldl_perm_sorted _ _ _ _ ((h2 :: t2).map evFlip) (h1 :: t1) ⟨h2.1 - 1, []⟩
      hperm hsort2f hsort1]
  exact foldl_out_initFree _ _ _ _ (h1 :: t1) (h1.1 - 1) (h2.1 - 1) [] hbound

/-- Claim C7, amended: every interval emitted by `cross_two_gtis A B` is
contained in some interval of `join_equal_gti_boundaries A` *or* in some
interval of `join_equal_gti_boundaries B` — namely in an interval of the
series whose end event emitted it.  Containment in *both* original lists, as
the claim states it, fails (see the counterexample). -/
theorem C7_subset_join_or (A B : List (ℚ × ℚ)) (hA : ValidGTI A) (hB : ValidGTI B)
    (p : ℚ × ℚ) (hp : p ∈ cross_two_gtis A B) :
    (∃ r ∈ join_equal_gti_boundaries A, r.1 ≤ p.1 ∧ p.2 ≤ r.2) ∨
      ∃ r ∈ join_equal_gti_boundaries B, r.1 ≤ p.1 ∧ p.2 ≤ r.2 := by
  obtain ⟨hvA', hsA', heA'⟩ := join_props A hA
  obtain ⟨hvB', hsB', heB'⟩ := join_props B hB
  cases he : sweepEvents (join_equal_gti_boundaries A) (join_equal_gti_boundaries B) with
  | nil =>
    rw [cross_two_gtis_no_events A B he] at hp
    exact absurd hp (List.not_mem_nil p)
  | cons h1 t1 =>
    rw [cross_two_gtis_events A B h1 t1 he] at hp
    refine foldl_out_invariant _ _ _ _
      (fun q => (∃ r ∈ join_equal_gti_boundaries A, r.1 ≤ q.1 ∧ q.2 ≤ r.2) ∨
        ∃ r ∈ join_equal_gti_boundaries B, r.1 ≤ q.1 ∧ q.2 ≤ r.2)
      (h1 :: t1) ⟨h1.1 - 1, []⟩ (fun q hq => absurd hq (List.not_mem_nil q)) ?_ p hp
    intro ev hev s hs
    obtain ⟨i, j, hi, hj, hmax⟩ := stepS_eq_some _ _ ev.2.1 s hs
    have hevmem : (ev.1, ev.2.1) ∈ join_equal_gti_boundaries A ∨
        (ev.1, ev.2.1) ∈ join_equal_gti_boundaries B :=
      sweepEvents_mem _ _ ev (he ▸ hev)
    rcases hevmem with hrow | hrow
    · left
      obtain ⟨r, hr, hr1, hre⟩ := staircase (join_equal_gti_boundaries A) hvA' hsA' heA'
        ev.2.1 (ev.1, ev.2.1) hrow rfl i hi
      refine ⟨r, hr, ?_, hre⟩
      rw [hr1, hmax]
      exact le_max_left _ _
    · right
      obtain ⟨r, hr, hr1, hre⟩ := staircase (join_equal_gti_boundaries B) hvB' hsB' heB'
        ev.2.1 (ev.1, ev.2.1) hrow rfl j hj
      refine ⟨r, hr, ?_, hre⟩
      rw [hr1, hmax]
      exact le_max_right _ _


/-- Witness for C6 at `A = [(0,2)]`, `B = [(1,3)]` (both orders give
`[(1, 2)]`). -/
theorem C6_cross_comm_witness :
    ValidGTI [((0 : ℚ), (2 : ℚ))] ∧ ValidGTI [((1 : ℚ), (3 : ℚ))] ∧
      ([((0 : ℚ), (2 : ℚ))] ≠ ([] : List (ℚ × ℚ))) ∧
      ([((1 : ℚ), (3 : ℚ))] ≠ ([] : List (ℚ × ℚ))) ∧
      cross_two_gtis [((0 : ℚ), (2 : ℚ))] [((1 : ℚ), (3 : ℚ))] =
        cross_two_gtis [((1 : ℚ), (3 : ℚ))] [((0 : ℚ), (2 : ℚ))] :=
  ⟨by constructor <;> simp, by constructor <;> simp, by simp, by simp,
    C6_cross_comm [(0, 2)] [(1, 3)] (by constructor <;> simp)
      (by constructor <;> simp) (by simp) (by simp)⟩

/-- Claim C7, counterexample: `cross_two_gtis [(1,5)] [(0,1)]` returns
`[(1, 5)]` although the true intersection is empty — series B's interval
`(0, 1)` ends exactly at the candidate start `1`, so neither rejection
condition fires (both use strict `<`).  The output interval `(1, 5)` is not
contained in B's only interval `(0, 1)` (that would need `5 ≤ 1`), refuting
the claim's "contained in some interval of both A and B". -/
theorem C7_subset_fails :
    cross_two_gtis [((1 : ℚ), (5 : ℚ))] [((0 : ℚ), (1 : ℚ))] = [(1, 5)] ∧
      ¬((5 : ℚ) ≤ 1) := by
  constructor
  · with_unfolding_all decide
  · norm_num

/-- Witness for C7's amended claim at `A = [(0,2)]`, `B = [(1,3)]`,
`p = (1, 2)`. -/
theorem C7_subset_join_or_witness :
    ValidGTI [((0 : ℚ), (2 : ℚ))] ∧ ValidGTI [((1 : ℚ), (3 : ℚ))] ∧
      ((1 : ℚ), (2 : ℚ)) ∈ cross_two_gtis [((0 : ℚ), (2 : ℚ))] [((1 : ℚ), (3 : ℚ))] ∧
      ((∃ r ∈ join_equal_gti_boundaries [((0 : ℚ), (2 : ℚ))],
          r.1 ≤ ((1 : ℚ), (2 : ℚ)).1 ∧ ((1 : ℚ), (2 : ℚ)).2 ≤ r.2) ∨
        ∃ r ∈ join_equal_gti_boundaries [((1 : ℚ), (3 : ℚ))],
          r.1 ≤ ((1 : ℚ), (2 : ℚ)).1 ∧ ((1 : ℚ), (2 : ℚ)).2 ≤ r.2) :=
  ⟨by constructor <;> simp, by constructor <;> simp,
    by with_unfolding_all decide,
    C7_subset_join_or [(0, 2)] [(1, 3)] (by constructor <;> simp)
      (by constructor <;> simp) (1, 2) (by with_unfolding_all decide)⟩
